import Mathlib

/-!
Verification development for the feed aggregation & enrichment pipeline of
`server/server.js` (ai-learning-dashboard).

The JavaScript source is shallowly embedded: pure functions become Lean
functions; the effectful parts (network fetches, the OpenAI call, date
parsing by the JS `Date` constructor) are modelled as explicit oracle
parameters or as small state machines; JS strings are Lean `String`s and JS
numbers are `Int`/`Nat`.
-/

set_option maxRecDepth 4096

namespace Dashboard

/-- A raw feed item, as assembled in the `fetchFeeds` loop
(`collected.push({title, url, source, publishedAt, snippet})`). -/
structure RawItem where
  title : String
  url : String
  source : String
  publishedAt : String
  snippet : String
deriving DecidableEq, Repr

/-- One entry of a parsed feed document, with the optional fields that
`fetchFeeds` reads (`it.title`, `it.link`, `it.guid`, `it.isoDate`,
`it.pubDate`, `it.contentSnippet`, `it.summary`, `it.content`).
`none` models an absent (undefined) field. -/
structure FeedEntry where
  title : Option String
  link : Option String
  guid : Option String
  isoDate : Option String
  pubDate : Option String
  contentSnippet : Option String
  summary : Option String
  content : Option String
deriving DecidableEq, Repr

/-- A parsed feed document: `feed.title` and `feed.items`. -/
structure Feed where
  title : Option String
  items : List FeedEntry
deriving DecidableEq, Repr

/-- The enriched record built per item in `fetchFeeds`
(`{id, title, track, level, type, summary, content, url}`). -/
structure EnrichedItem where
  id : String
  title : String
  track : String
  level : String
  type : String
  summary : String
  content : String
  url : String
deriving DecidableEq, Repr

/-- JS `opt || dflt` on a possibly-absent string: an absent field and the
empty string are both falsy. -/
def jsOr (opt : Option String) (dflt : String) : String :=
  match opt with
  | some s => if s = "" then dflt else s
  | none => dflt

/-- JS `a || b` on two strings (the empty string is falsy). -/
def jsOrS (a b : String) : String :=
  if a = "" then b else a

/-- JS `String.prototype.toLowerCase()` on the character list of a
string (the keyword patterns are ASCII, for which `Char.toLower` agrees
with the JS lowercasing). -/
def strToLower (s : String) : String :=
  String.mk (s.data.map Char.toLower)

/-- JS `String.prototype.trim()`: strip leading and trailing
whitespace. -/
def strTrim (s : String) : String :=
  String.mk (((s.data.dropWhile Char.isWhitespace).reverse.dropWhile Char.isWhitespace).reverse)

/-- Does `pat` occur as a contiguous block starting at some position of
the character list? -/
def hasInfixChars (pat : List Char) : List Char → Bool
  | [] => pat.isEmpty
  | c :: cs => pat.isPrefixOf (c :: cs) || hasInfixChars pat cs

/-- Substring test, modelling a JS regex alternation of literal words:
`pat` occurs contiguously in `s`. -/
def strContains (s pat : String) : Bool :=
  hasInfixChars pat.toList s.toList

/-- Alternatives of the first regex in `classifyTrack`:
`/(mlops|ai ops|observability|monitoring|deployment|retrieval|vector)/`. -/
def aiOpsPats : List String :=
  ["mlops", "ai ops", "observability", "monitoring", "deployment", "retrieval", "vector"]

/-- Alternatives of `/(fine[- ]?tuning|sft|rlhf|rlaif|reward|policy|ppo|dpo)/`;
the character class `[- ]?` expands into the three spellings of fine-tuning. -/
def sftRlPats : List String :=
  ["fine-tuning", "fine tuning", "finetuning", "sft", "rlhf", "rlaif", "reward", "policy", "ppo", "dpo"]

/-- Alternatives of `/(eval|benchmark|truthfulqa|mmlu|helm|metrics)/`. -/
def evalsPats : List String :=
  ["eval", "benchmark", "truthfulqa", "mmlu", "helm", "metrics"]

/-- Alternatives of `/(experiment|a\/b|bandit|bayesian|hypothesis)/`. -/
def experimentsPats : List String :=
  ["experiment", "a/b", "bandit", "bayesian", "hypothesis"]

/-- Does any alternative of the pattern list occur in `t`? -/
def matchesAny (pats : List String) (t : String) : Bool :=
  pats.any (fun p => strContains t p)

/-- `classifyTrack(textA, textB)` (server.js lines 79-86): lowercase the
concatenation `textA + " " + textB`, test the four keyword regexes in
order, first match wins, default `'AI Ops'`. -/
def classifyTrack (textA textB : String) : String :=
  let t := strToLower (textA ++ " " ++ textB)
  if matchesAny aiOpsPats t then "AI Ops"
  else if matchesAny sftRlPats t then "SFT/RL"
  else if matchesAny evalsPats t then "Evals"
  else if matchesAny experimentsPats t then "Experiments"
  else "AI Ops"

/-- UTF-8 encoding of one character, as `Buffer.from(url)` encodes it
(byte values as naturals). -/
def utf8EncodeCharNat (c : Char) : List Nat :=
  let n := c.toNat
  if n < 128 then [n]
  else if n < 2048 then [192 + n / 64, 128 + n % 64]
  else if n < 65536 then [224 + n / 4096, 128 + (n / 64) % 64, 128 + n % 64]
  else [240 + n / 262144, 128 + (n / 4096) % 64, 128 + (n / 64) % 64, 128 + n % 64]

/-- UTF-8 byte sequence of a string (`Buffer.from(s)` with the default
utf8 encoding). -/
def utf8Bytes (s : String) : List Nat :=
  s.data.flatMap utf8EncodeCharNat

/-- The standard base64 alphabet used by `Buffer.toString('base64')`. -/
def base64Alphabet : List Char :=
  "ABCDEFGHIJKLMNOPQRSTUVWXYZabcdefghijklmnopqrstuvwxyz0123456789+/".toList

/-- The base64 digit for a 6-bit value. -/
def b64Digit (n : Nat) : Char :=
  base64Alphabet.getD n 'A'

/-- Standard base64 encoding (with `=` padding) of a byte list, as
`Buffer.toString('base64')` produces. -/
def base64Encode : List Nat → String
  | [] => ""
  | [b1] =>
      String.mk [b64Digit (b1 / 4), b64Digit (b1 % 4 * 16), '=', '=']
  | [b1, b2] =>
      String.mk [b64Digit (b1 / 4), b64Digit (b1 % 4 * 16 + b2 / 16), b64Digit (b2 % 16 * 4), '=']
  | b1 :: b2 :: b3 :: rest =>
      String.mk [b64Digit (b1 / 4), b64Digit (b1 % 4 * 16 + b2 / 16),
        b64Digit (b2 % 16 * 4 + b3 / 64), b64Digit (b3 % 64)] ++ base64Encode rest

/-- JS `String.prototype.slice(0, n)`: the first `n` characters (base64
output is ASCII, where characters and UTF-16 units coincide). -/
def strTake (s : String) (n : Nat) : String :=
  String.mk (s.data.take n)

/-- The derived item id (server.js line 197):
`Buffer.from(item.url).toString('base64').slice(0, 24)`. -/
def deriveId (url : String) : String :=
  strTake (base64Encode (utf8Bytes url)) 24

/-- The summarizer configuration read from the environment:
`OPENAI_API_KEY` (empty means absent) and the `SUMMARIZE` switch. -/
structure SumCfg where
  apiKey : String
  summarize : Bool
deriving DecidableEq, Repr

/-- Outcome of one OpenAI chat-completions request, as `summarizeRich`
distinguishes them: a success response carrying
`data.choices[0].message.content` (absent fields give `none`), a non-ok
HTTP response with its body text, or a thrown network error/timeout. -/
inductive AIResp where
  | ok (content : Option String)
  | httpErr (body : String)
  | netErr
deriving DecidableEq, Repr

/-- The quota test applied to a non-ok response body (server.js line 148):
`t.includes('"insufficient_quota"') || t.toLowerCase().includes('quota')`. -/
def quotaIndicator (t : String) : Bool :=
  strContains t "\"insufficient_quota\"" || strContains (strToLower t) "quota"

/-- Result of one `summarizeRich` call: the returned text, whether a
network request was attempted, and the value of the per-cycle disable
flag `summarizeDisabledForCycle` after the call. -/
structure SumResult where
  text : String
  attempted : Bool
  disabled : Bool
deriving DecidableEq, Repr

/-- `summarizeRich(title, url, fulltext)` (server.js lines 115-162), as a
transition on the per-cycle disable flag. The first guard
(`!OPENAI_API_KEY || !SUMMARIZE || summarizeDisabledForCycle`) returns
empty before any request is built; otherwise the request outcome `resp`
is consumed: a non-ok body matching the quota indicator sets the flag,
any other failure leaves it unchanged, and a success returns the trimmed
message content (empty if the response shape is unexpected). -/
def summarizeRich (cfg : SumCfg) (title url fulltext : String) (resp : AIResp)
    (disabled : Bool) : SumResult :=
  if cfg.apiKey = "" || !cfg.summarize || disabled then
    ⟨"", false, disabled⟩
  else
    match resp with
    | .ok content => ⟨strTrim (content.getD ""), true, disabled⟩
    | .httpErr body =>
        if quotaIndicator body then ⟨"", true, true⟩ else ⟨"", true, disabled⟩
    | .netErr => ⟨"", true, disabled⟩

/-- The inputs of one summarize call within a cycle: the item fields it is
called with and the oracle outcome of the request it would make. -/
structure SumCall where
  title : String
  url : String
  fulltext : String
  resp : AIResp
deriving DecidableEq, Repr

/-- The sequence of `summarizeRich` calls of one refresh cycle, in call
order, threading the shared `summarizeDisabledForCycle` flag from each
call to the next. -/
def runCycle (cfg : SumCfg) : List SumCall → Bool → List SumResult
  | [], _ => []
  | c :: cs, d =>
      let s := summarizeRich cfg c.title c.url c.fulltext c.resp d
      s :: runCycle cfg cs s.disabled

/-- The summarize calls a `fetchFeeds` run performs: line 166
(`summarizeDisabledForCycle = false; // reset for this run`) clears the
flag at the start of the cycle, whatever it was left at (`prev`). -/
def fetchCycleSummaries (cfg : SumCfg) (calls : List SumCall) (prev : Bool) :
    List SumResult :=
  runCycle cfg calls false

/-- `toInt(v, dflt)` (server.js lines 18-21): the parsed integer of the
env value when it parses, the default otherwise. `none` models a missing
or non-numeric value. -/
def toInt (v : Option Int) (dflt : Int) : Int :=
  v.getD dflt

/-- `REFRESH_MS` (server.js line 31) as a function of `REFRESH_MINUTES`:
`Math.min(Math.max(REFRESH_MINUTES * 60 * 1000, 5 * 60 * 1000), 24 * 60 * 60 * 1000)`. -/
def refreshMs (refreshMinutes : Int) : Int :=
  min (max (refreshMinutes * 60 * 1000) (5 * 60 * 1000)) (24 * 60 * 60 * 1000)

/-- The interval handed to `setInterval` (server.js line 215):
`Number.isFinite(REFRESH_MS) ? REFRESH_MS : 60 * 60 * 1000`. In the
integer model `REFRESH_MS` is always finite, so the guard keeps it. -/
def schedulerIntervalMs (refreshMinutes : Int) : Int :=
  refreshMs refreshMinutes

/-- The `RawItem` pushed for one feed entry (server.js lines 173-179),
given the `source` name (`feed.title || url`). -/
def entryToRaw (source : String) (it : FeedEntry) : RawItem :=
  { title := jsOr it.title "(untitled)"
    url := jsOr it.link (jsOr it.guid "")
    source := source
    publishedAt := jsOr it.isoDate (jsOr it.pubDate "")
    snippet := jsOr it.contentSnippet (jsOr it.summary (jsOr it.content "")) }

/-- The raw items one successfully parsed source contributes: its entries
mapped through `entryToRaw` with source name `feed.title || url`. -/
def feedItems (url : String) (feed : Feed) : List RawItem :=
  feed.items.map (entryToRaw (jsOr feed.title url))

/-- One configured source's fetch outcome: its URL together with either
the parsed feed or the thrown error (`parser.parseURL` failing). -/
abbrev SourceOutcome := String × Except String Feed

/-- The contribution of one source to `collected`: its mapped items on
success, nothing on failure (the `catch` only logs). -/
def sourceItems (src : SourceOutcome) : List RawItem :=
  match src with
  | (url, .ok feed) => feedItems url feed
  | (_, .error _) => []

/-- The `for (const url of FEEDS)` loop of `fetchFeeds` (lines 168-184):
each source is tried in turn, successful parses push their items onto
`collected`, and a throwing source is caught, logged and skipped. -/
def collectFeeds : List SourceOutcome → List RawItem
  | [] => []
  | (url, .ok feed) :: rest => feedItems url feed ++ collectFeeds rest
  | (_, .error _) :: rest => collectFeeds rest

/-- The numeric value of `new Date(x.publishedAt || 0)` used by the sort
comparator (line 187). An empty `publishedAt` is falsy, so the comparator
sees `new Date(0)` (the epoch); a non-empty string is parsed by the
`Date` constructor, modelled by the oracle `parseDate` (`none` is an
Invalid Date, whose numeric value is NaN). -/
def dval (parseDate : String → Option Int) (it : RawItem) : Option Int :=
  if it.publishedAt = "" then some 0 else parseDate it.publishedAt

/-- The sort order induced by the comparator
`(a, b) => new Date(b.publishedAt || 0) - new Date(a.publishedAt || 0)`:
`a` may stay before `b` when the comparator value is not positive. A NaN
comparator value (either date invalid) is not positive, so such pairs
impose no ordering. -/
def dateLe (parseDate : String → Option Int) (a b : RawItem) : Bool :=
  match dval parseDate a, dval parseDate b with
  | some x, some y => decide (y ≤ x)
  | _, _ => true

/-- Insert into a sorted list, keeping earlier-arrived elements first
among ties: the stable insertion step of `stableSort`. -/
def sortInsert (le : α → α → Bool) (x : α) : List α → List α
  | [] => [x]
  | y :: ys => if le x y then x :: y :: ys else y :: sortInsert le x ys

/-- A stable comparison sort, modelling `Array.prototype.sort` (ES2019+
requires sort stability; for a comparator that is consistent on the
array's elements every stable sort produces the same order). -/
def stableSort (le : α → α → Bool) : List α → List α
  | [] => []
  | x :: xs => sortInsert le x (stableSort le xs)

/-- `collected.sort(...)` followed by `.filter(x => x.url).slice(0, MAX_ITEMS)`
(lines 187-188): sort newest first, drop items with an empty (falsy) url,
cap at `maxItems`. -/
def trimmedCandidates (parseDate : String → Option Int) (maxItems : Nat)
    (srcs : List SourceOutcome) : List RawItem :=
  ((stableSort (dateLe parseDate) (collectFeeds srcs)).filter
    (fun x => x.url != "")).take maxItems

/-- The record built for one item (lines 191-206), given the readability
text `full` (empty on extraction failure) and the summarizer output
`rich` (empty when skipped or failed):
`track = classifyTrack(item.title, rich || full || item.snippet)`,
`summary = rich || (full ? full.slice(0, 800) + '…' : item.snippet || 'New article')`,
`content = item.source + ' • ' + (item.publishedAt || '')`. -/
def enrichItem (item : RawItem) (full rich : String) : EnrichedItem :=
  { id := deriveId item.url
    title := item.title
    track := classifyTrack item.title (jsOrS rich (jsOrS full item.snippet))
    level := "Foundations"
    type := "Article"
    summary := jsOrS rich (if full != "" then strTake full 800 ++ "…" else jsOrS item.snippet "New article")
    content := item.source ++ " • " ++ item.publishedAt
    url := item.url }

/-- Enrichment of the trimmed candidates, threading the shared
`summarizeDisabledForCycle` flag through the summarize calls in call
order. `ext` is the readability oracle (`fetchReadable`, empty string
on failure) and `resps` gives the AI request outcome for the item at
each index. -/
def enrichAll (cfg : SumCfg) (ext : String → String) (resps : Nat → AIResp) :
    List RawItem → Nat → Bool → List EnrichedItem
  | [], _, _ => []
  | item :: rest, i, d =>
      let full := ext item.url
      let s := summarizeRich cfg item.title item.url (jsOrS full item.snippet) (resps i) d
      enrichItem item full s.text :: enrichAll cfg ext resps rest (i + 1) s.disabled

/-- One `fetchFeeds` run (lines 164-210): reset the per-cycle disable
flag (line 166, ignoring whatever `prev` state the previous cycle left),
collect the sources, sort/filter/cap, and enrich. The returned list is
the `items` of the snapshot published into `cache` (line 208). -/
def fetchFeedsModel (cfg : SumCfg) (parseDate : String → Option Int)
    (maxItems : Nat) (ext : String → String) (resps : Nat → AIResp)
    (srcs : List SourceOutcome) (prev : Bool) : List EnrichedItem :=
  enrichAll cfg ext resps (trimmedCandidates parseDate maxItems srcs) 0 false

/-! ## The `mapWithConcurrency` worker pool (server.js lines 64-77)

`mapWithConcurrency(arr, concurrency, fn)` allocates `results = new
Array(arr.length)`, starts `Math.min(Math.max(concurrency, 1),
arr.length)` workers, and each worker repeatedly grabs the shared
counter (`const idx = i++`), exits if `idx >= arr.length`, and otherwise
awaits `fn(arr[idx], idx)` and stores the value at `results[idx]`.

The interleaving of workers at the suspension points is modelled by a
small-step relation on a pool state: grabbing the counter and writing
the awaited result are separate steps, so any number of other workers
can run in between. `wcount j` is a ghost count of how many times index
`j` was processed. -/

/-- What one worker of the pool is currently doing: about to grab the
counter, awaiting `fn` for a grabbed index, or exited its loop. -/
inductive WorkerSt where
  | idle
  | working (idx : Nat)
  | done
deriving DecidableEq, Repr

/-- The shared state of a `mapWithConcurrency` run: the counter `i`, the
`results` array (indexed slots, `none` while unset), the status of each
worker, and the ghost per-index processing count. -/
structure PoolState (β : Type) where
  next : Nat
  results : Nat → Option β
  workers : Nat → WorkerSt
  wcount : Nat → Nat

/-- The number of workers started:
`Math.min(Math.max(concurrency, 1), arr.length)`. -/
def workerCount (concurrency n : Nat) : Nat :=
  min (max concurrency 1) n

/-- The initial pool state: counter `0`, all result slots unset, the
workers (indices below the worker count) idle. -/
def poolInit (β : Type) : PoolState β :=
  ⟨0, fun _ => none, fun _ => .idle, fun _ => 0⟩

/-- One scheduler step of the pool with `n = arr.length`, `W` workers and
per-index result `g idx` (modelling `await fn(arr[idx], idx)`):
an idle worker grabs `const idx = i++` and either starts working
(`idx < n`) or breaks out of its loop (`idx >= n`); a working worker's
awaited call returns and it stores `results[idx]` and loops back. -/
inductive PoolStep (n W : Nat) (g : Nat → β) : PoolState β → PoolState β → Prop where
  | grab_lt (s : PoolState β) (k : Nat) (hk : k < W) (hw : s.workers k = .idle)
      (h : s.next < n) :
      PoolStep n W g s
        ⟨s.next + 1, s.results, Function.update s.workers k (.working s.next), s.wcount⟩
  | grab_ge (s : PoolState β) (k : Nat) (hk : k < W) (hw : s.workers k = .idle)
      (h : n ≤ s.next) :
      PoolStep n W g s
        ⟨s.next + 1, s.results, Function.update s.workers k .done, s.wcount⟩
  | finish (s : PoolState β) (k idx : Nat) (hk : k < W) (hw : s.workers k = .working idx) :
      PoolStep n W g s
        ⟨s.next, fun j => if j = idx then some (g idx) else s.results j,
          Function.update s.workers k .idle,
          fun j => if j = idx then s.wcount j + 1 else s.wcount j⟩

/-- A pool run has ended when every worker has left its loop, i.e.
`Promise.all(workers)` has resolved. -/
def poolDone (W : Nat) (s : PoolState β) : Prop :=
  ∀ k, k < W → s.workers k = .done

/-- Index `j` is currently grabbed by some worker of the pool. -/
def heldBy (W : Nat) (w : Nat → WorkerSt) (j : Nat) : Prop :=
  ∃ k, k < W ∧ w k = .working j

theorem heldBy_update_working {W k v : Nat} {w : Nat → WorkerSt}
    (hk : k < W) (hw : w k = .idle) (j : Nat) :
    heldBy W (Function.update w k (.working v)) j ↔ j = v ∨ heldBy W w j := by
  constructor
  · rintro ⟨q, hq, hwq⟩
    by_cases hqk : q = k
    · subst hqk
      rw [Function.update_same] at hwq
      cases hwq
      exact Or.inl rfl
    · exact Or.inr ⟨q, hq, by rwa [Function.update_noteq hqk] at hwq⟩
  · rintro (rfl | ⟨q, hq, hwq⟩)
    · exact ⟨k, hk, Function.update_same ..⟩
    · have hqk : q ≠ k := by
        rintro rfl
        rw [hw] at hwq
        cases hwq
      exact ⟨q, hq, by rw [Function.update_noteq hqk]; exact hwq⟩

theorem heldBy_update_done {W k : Nat} {w : Nat → WorkerSt}
    (hw : w k = .idle) (j : Nat) :
    heldBy W (Function.update w k .done) j ↔ heldBy W w j := by
  constructor
  · rintro ⟨q, hq, hwq⟩
    have hqk : q ≠ k := by
      rintro rfl
      rw [Function.update_same] at hwq
      cases hwq
    exact ⟨q, hq, by rwa [Function.update_noteq hqk] at hwq⟩
  · rintro ⟨q, hq, hwq⟩
    have hqk : q ≠ k := by
      rintro rfl
      rw [hw] at hwq
      cases hwq
    exact ⟨q, hq, by rw [Function.update_noteq hqk]; exact hwq⟩

/-- The run invariant of the pool: a grabbed-and-released index below the
counter has its result stored; grabbed indices are in range and unique to
their worker; a worker is only done once the counter has passed the
array; and the ghost count records exactly one processing for each
released index below the counter and none elsewhere. -/
structure PoolInv (n W : Nat) (g : Nat → β) (s : PoolState β) : Prop where
  res_done : ∀ j, j < n → j < s.next → ¬ heldBy W s.workers j → s.results j = some (g j)
  held_lt : ∀ k j, k < W → s.workers k = .working j → j < n ∧ j < s.next
  held_uniq : ∀ k q j, k < W → q < W → s.workers k = .working j →
    s.workers q = .working j → k = q
  done_ge : (∃ k, k < W ∧ s.workers k = .done) → n ≤ s.next
  wc1 : ∀ j, j < n → j < s.next → ¬ heldBy W s.workers j → s.wcount j = 1
  wc0 : ∀ j, ¬ (j < n ∧ j < s.next ∧ ¬ heldBy W s.workers j) → s.wcount j = 0

theorem poolInv_init {β : Type} (n W : Nat) (g : Nat → β) :
    PoolInv n W g (poolInit β) := by
  refine ⟨?_, ?_, ?_, ?_, ?_, ?_⟩
  · intro j _ hj _
    exact absurd hj (Nat.not_lt_zero j)
  · intro k j _ hwk
    cases hwk
  · intro k q j _ _ hwk _
    cases hwk
  · rintro ⟨k, _, hwk⟩
    cases hwk
  · intro j _ hj _
    exact absurd hj (Nat.not_lt_zero j)
  · intro j _
    rfl

theorem poolInv_step {β : Type} {n W : Nat} {g : Nat → β} {s t : PoolState β}
    (hinv : PoolInv n W g s) (hstep : PoolStep n W g s t) : PoolInv n W g t := by
  cases hstep with
  | grab_lt k hk hw h =>
      have hheld := fun j => heldBy_update_working (v := s.next) (w := s.workers) hk hw j
      refine ⟨?_, ?_, ?_, ?_, ?_, ?_⟩
      · intro j hjn hjnext hnh
        replace hjnext : j < s.next + 1 := hjnext
        replace hnh : ¬ heldBy W (Function.update s.workers k (WorkerSt.working s.next)) j := hnh
        show s.results j = some (g j)
        have hjne : j ≠ s.next := by
          rintro rfl
          exact hnh ((hheld s.next).mpr (Or.inl rfl))
        exact hinv.res_done j hjn (Nat.lt_of_le_of_ne (Nat.le_of_lt_succ hjnext) hjne)
          (fun hh => hnh ((hheld j).mpr (Or.inr hh)))
      · intro q j hq hwq
        replace hwq : Function.update s.workers k (WorkerSt.working s.next) q = WorkerSt.working j := hwq
        show j < n ∧ j < s.next + 1
        by_cases hqk : q = k
        · subst hqk
          rw [Function.update_same] at hwq
          injection hwq with hj
          subst hj
          exact ⟨h, Nat.lt_succ_self _⟩
        · rw [Function.update_noteq hqk] at hwq
          have hlt := hinv.held_lt q j hq hwq
          exact ⟨hlt.1, Nat.lt_succ_of_lt hlt.2⟩
      · intro q r j hq hr hwq hwr
        replace hwq : Function.update s.workers k (WorkerSt.working s.next) q = WorkerSt.working j := hwq
        replace hwr : Function.update s.workers k (WorkerSt.working s.next) r = WorkerSt.working j := hwr
        by_cases hqk : q = k <;> by_cases hrk : r = k
        · rw [hqk, hrk]
        · subst hqk
          rw [Function.update_same] at hwq
          injection hwq with hj
          subst hj
          rw [Function.update_noteq hrk] at hwr
          exact absurd (hinv.held_lt r s.next hr hwr).2 (Nat.lt_irrefl _)
        · subst hrk
          rw [Function.update_same] at hwr
          injection hwr with hj
          subst hj
          rw [Function.update_noteq hqk] at hwq
          exact absurd (hinv.held_lt q s.next hq hwq).2 (Nat.lt_irrefl _)
        · rw [Function.update_noteq hqk] at hwq
          rw [Function.update_noteq hrk] at hwr
          exact hinv.held_uniq q r j hq hr hwq hwr
      · rintro ⟨q, hq, hwq⟩
        replace hwq : Function.update s.workers k (WorkerSt.working s.next) q = WorkerSt.done := hwq
        show n ≤ s.next + 1
        by_cases hqk : q = k
        · subst hqk
          rw [Function.update_same] at hwq
          cases hwq
        · rw [Function.update_noteq hqk] at hwq
          exact Nat.le_succ_of_le (hinv.done_ge ⟨q, hq, hwq⟩)
      · intro j hjn hjnext hnh
        replace hjnext : j < s.next + 1 := hjnext
        replace hnh : ¬ heldBy W (Function.update s.workers k (WorkerSt.working s.next)) j := hnh
        show s.wcount j = 1
        have hjne : j ≠ s.next := by
          rintro rfl
          exact hnh ((hheld s.next).mpr (Or.inl rfl))
        exact hinv.wc1 j hjn (Nat.lt_of_le_of_ne (Nat.le_of_lt_succ hjnext) hjne)
          (fun hh => hnh ((hheld j).mpr (Or.inr hh)))
      · intro j hc
        replace hc : ¬ (j < n ∧ j < s.next + 1 ∧
            ¬ heldBy W (Function.update s.workers k (WorkerSt.working s.next)) j) := hc
        show s.wcount j = 0
        refine hinv.wc0 j ?_
        rintro ⟨h1, h2, h3⟩
        refine hc ⟨h1, Nat.lt_succ_of_lt h2, fun hh => ?_⟩
        rcases (hheld j).mp hh with rfl | hh'
        · exact Nat.lt_irrefl _ h2
        · exact h3 hh'
  | grab_ge k hk hw h =>
      have hheld := fun j => heldBy_update_done (W := W) (k := k) (w := s.workers) hw j
      refine ⟨?_, ?_, ?_, ?_, ?_, ?_⟩
      · intro j hjn hjnext hnh
        replace hnh : ¬ heldBy W (Function.update s.workers k WorkerSt.done) j := hnh
        show s.results j = some (g j)
        exact hinv.res_done j hjn (Nat.lt_of_lt_of_le hjn h)
          (fun hh => hnh ((hheld j).mpr hh))
      · intro q j hq hwq
        replace hwq : Function.update s.workers k WorkerSt.done q = WorkerSt.working j := hwq
        show j < n ∧ j < s.next + 1
        by_cases hqk : q = k
        · subst hqk
          rw [Function.update_same] at hwq
          cases hwq
        · rw [Function.update_noteq hqk] at hwq
          have hlt := hinv.held_lt q j hq hwq
          exact ⟨hlt.1, Nat.lt_succ_of_lt hlt.2⟩
      · intro q r j hq hr hwq hwr
        replace hwq : Function.update s.workers k WorkerSt.done q = WorkerSt.working j := hwq
        replace hwr : Function.update s.workers k WorkerSt.done r = WorkerSt.working j := hwr
        have hqk : q ≠ k := by
          rintro rfl
          rw [Function.update_same] at hwq
          cases hwq
        have hrk : r ≠ k := by
          rintro rfl
          rw [Function.update_same] at hwr
          cases hwr
        rw [Function.update_noteq hqk] at hwq
        rw [Function.update_noteq hrk] at hwr
        exact hinv.held_uniq q r j hq hr hwq hwr
      · intro _
        show n ≤ s.next + 1
        exact Nat.le_succ_of_le h
      · intro j hjn hjnext hnh
        replace hnh : ¬ heldBy W (Function.update s.workers k WorkerSt.done) j := hnh
        show s.wcount j = 1
        exact hinv.wc1 j hjn (Nat.lt_of_lt_of_le hjn h)
          (fun hh => hnh ((hheld j).mpr hh))
      · intro j hc
        replace hc : ¬ (j < n ∧ j < s.next + 1 ∧
            ¬ heldBy W (Function.update s.workers k WorkerSt.done) j) := hc
        show s.wcount j = 0
        refine hinv.wc0 j ?_
        rintro ⟨h1, h2, h3⟩
        exact hc ⟨h1, Nat.lt_succ_of_lt h2, fun hh => h3 ((hheld j).mp hh)⟩
  | finish k idx hk hw =>
      have hlt := hinv.held_lt k idx hk hw
      have hnotidx : ¬ heldBy W (Function.update s.workers k WorkerSt.idle) idx := by
        rintro ⟨q, hq, hwq⟩
        have hqk : q ≠ k := by
          rintro rfl
          rw [Function.update_same] at hwq
          cases hwq
        rw [Function.update_noteq hqk] at hwq
        exact hqk (hinv.held_uniq q k idx hq hk hwq hw)
      have hother : ∀ j, j ≠ idx →
          (heldBy W (Function.update s.workers k WorkerSt.idle) j ↔ heldBy W s.workers j) := by
        intro j hj
        constructor
        · rintro ⟨q, hq, hwq⟩
          have hqk : q ≠ k := by
            rintro rfl
            rw [Function.update_same] at hwq
            cases hwq
          rw [Function.update_noteq hqk] at hwq
          exact ⟨q, hq, hwq⟩
        · rintro ⟨q, hq, hwq⟩
          have hqk : q ≠ k := by
            rintro rfl
            rw [hw] at hwq
            injection hwq with he
            exact hj he.symm
          exact ⟨q, hq, by rw [Function.update_noteq hqk]; exact hwq⟩
      refine ⟨?_, ?_, ?_, ?_, ?_, ?_⟩
      · intro j hjn hjnext hnh
        replace hjnext : j < s.next := hjnext
        replace hnh : ¬ heldBy W (Function.update s.workers k WorkerSt.idle) j := hnh
        show (if j = idx then some (g idx) else s.results j) = some (g j)
        by_cases hje : j = idx
        · subst hje
          rw [if_pos rfl]
        · rw [if_neg hje]
          exact hinv.res_done j hjn hjnext (fun hh => hnh ((hother j hje).mpr hh))
      · intro q j hq hwq
        replace hwq : Function.update s.workers k WorkerSt.idle q = WorkerSt.working j := hwq
        show j < n ∧ j < s.next
        have hqk : q ≠ k := by
          rintro rfl
          rw [Function.update_same] at hwq
          cases hwq
        rw [Function.update_noteq hqk] at hwq
        exact hinv.held_lt q j hq hwq
      · intro q r j hq hr hwq hwr
        replace hwq : Function.update s.workers k WorkerSt.idle q = WorkerSt.working j := hwq
        replace hwr : Function.update s.workers k WorkerSt.idle r = WorkerSt.working j := hwr
        have hqk : q ≠ k := by
          rintro rfl
          rw [Function.update_same] at hwq
          cases hwq
        have hrk : r ≠ k := by
          rintro rfl
          rw [Function.update_same] at hwr
          cases hwr
        rw [Function.update_noteq hqk] at hwq
        rw [Function.update_noteq hrk] at hwr
        exact hinv.held_uniq q r j hq hr hwq hwr
      · rintro ⟨q, hq, hwq⟩
        replace hwq : Function.update s.workers k WorkerSt.idle q = WorkerSt.done := hwq
        show n ≤ s.next
        have hqk : q ≠ k := by
          rintro rfl
          rw [Function.update_same] at hwq
          cases hwq
        rw [Function.update_noteq hqk] at hwq
        exact hinv.done_ge ⟨q, hq, hwq⟩
      · intro j hjn hjnext hnh
        replace hjnext : j < s.next := hjnext
        replace hnh : ¬ heldBy W (Function.update s.workers k WorkerSt.idle) j := hnh
        show (if j = idx then s.wcount j + 1 else s.wcount j) = 1
        by_cases hje : j = idx
        · subst hje
          rw [if_pos rfl]
          have h0 : s.wcount j = 0 := by
            refine hinv.wc0 j ?_
            rintro ⟨_, _, h3⟩
            exact h3 ⟨k, hk, hw⟩
          rw [h0]
        · rw [if_neg hje]
          exact hinv.wc1 j hjn hjnext (fun hh => hnh ((hother j hje).mpr hh))
      · intro j hc
        replace hc : ¬ (j < n ∧ j < s.next ∧
            ¬ heldBy W (Function.update s.workers k WorkerSt.idle) j) := hc
        show (if j = idx then s.wcount j + 1 else s.wcount j) = 0
        by_cases hje : j = idx
        · subst hje
          exact absurd ⟨hlt.1, hlt.2, hnotidx⟩ hc
        · rw [if_neg hje]
          refine hinv.wc0 j ?_
          rintro ⟨h1, h2, h3⟩
          exact hc ⟨h1, h2, fun hh => h3 ((hother j hje).mp hh)⟩

theorem poolInv_reachable {β : Type} {n W : Nat} {g : Nat → β} {s : PoolState β}
    (hreach : Relation.ReflTransGen (PoolStep n W g) (poolInit β) s) :
    PoolInv n W g s := by
  induction hreach with
  | refl => exact poolInv_init n W g
  | tail _ hstep ih => exact poolInv_step ih hstep

theorem workerCount_pos {c n : Nat} (hn : 0 < n) : 0 < workerCount c n := by
  unfold workerCount
  exact lt_min (lt_of_lt_of_le Nat.zero_lt_one (le_max_right c 1)) hn

/-- Any completed run of the pool has stored `g j` at every index
`j < n`, and has processed every such index exactly once. -/
theorem pool_run_correct {β : Type} {n c : Nat} {g : Nat → β} {s : PoolState β}
    (hreach : Relation.ReflTransGen (PoolStep n (workerCount c n) g) (poolInit β) s)
    (hdone : poolDone (workerCount c n) s) :
    (∀ j, j < n → s.results j = some (g j)) ∧
    (∀ j, s.wcount j = if j < n then 1 else 0) := by
  have hinv := poolInv_reachable hreach
  rcases Nat.eq_zero_or_pos n with hn | hn
  · subst hn
    constructor
    · intro j hj
      exact absurd hj (Nat.not_lt_zero j)
    · intro j
      rw [if_neg (Nat.not_lt_zero j)]
      refine hinv.wc0 j ?_
      rintro ⟨hj, _, _⟩
      exact Nat.not_lt_zero j hj
  · have hW : 0 < workerCount c n := workerCount_pos hn
    have hnext : n ≤ s.next := hinv.done_ge ⟨0, hW, hdone 0 hW⟩
    have hnh : ∀ j, ¬ heldBy (workerCount c n) s.workers j := by
      rintro j ⟨q, hq, hwq⟩
      rw [hdone q hq] at hwq
      cases hwq
    constructor
    · intro j hj
      exact hinv.res_done j hj (Nat.lt_of_lt_of_le hj hnext) (hnh j)
    · intro j
      by_cases hj : j < n
      · rw [if_pos hj]
        exact hinv.wc1 j hj (Nat.lt_of_lt_of_le hj hnext) (hnh j)
      · rw [if_neg hj]
        refine hinv.wc0 j ?_
        rintro ⟨hj', _, _⟩
        exact hj hj'

/-! ## Sorting lemmas -/

theorem mem_sortInsert {le : α → α → Bool} {x y : α} {l : List α} :
    y ∈ sortInsert le x l ↔ y = x ∨ y ∈ l := by
  induction l with
  | nil => simp [sortInsert]
  | cons z zs ih =>
      simp only [sortInsert]
      by_cases h : le x z
      · rw [if_pos h]
        simp
      · rw [if_neg h]
        simp only [List.mem_cons, ih]
        tauto

theorem mem_stableSort {le : α → α → Bool} {y : α} {l : List α} :
    y ∈ stableSort le l ↔ y ∈ l := by
  induction l with
  | nil => simp [stableSort]
  | cons z zs ih =>
      simp only [stableSort, mem_sortInsert, List.mem_cons, ih]

theorem pairwise_sortInsert {le : α → α → Bool} {P : α → Prop}
    (htot : ∀ a b, P a → P b → le a b = true ∨ le b a = true)
    (htrans : ∀ a b c, P a → P b → P c → le a b = true → le b c = true → le a c = true)
    {x : α} {l : List α} (hx : P x) (hl : ∀ a ∈ l, P a)
    (hs : l.Pairwise (fun a b => le a b = true)) :
    (sortInsert le x l).Pairwise (fun a b => le a b = true) := by
  induction l with
  | nil => simp [sortInsert]
  | cons y ys ih =>
      simp only [sortInsert]
      by_cases h : le x y
      · rw [if_pos h]
        refine List.Pairwise.cons ?_ hs
        intro z hz
        rcases List.mem_cons.mp hz with rfl | hz'
        · exact h
        · have hyz := (List.pairwise_cons.mp hs).1 z hz'
          exact htrans x y z hx (hl y (List.mem_cons_self y ys)) (hl z (List.mem_cons_of_mem y hz')) h hyz
      · rw [if_neg h]
        have hyx : le y x = true := by
          rcases htot x y hx (hl y (List.mem_cons_self y ys)) with h' | h'
          · exact absurd h' h
          · exact h'
        refine List.Pairwise.cons ?_ ?_
        · intro z hz
          rcases mem_sortInsert.mp hz with rfl | hz'
          · exact hyx
          · exact (List.pairwise_cons.mp hs).1 z hz'
        · exact ih (fun a ha => hl a (List.mem_cons_of_mem y ha)) (List.pairwise_cons.mp hs).2

theorem pairwise_stableSort {le : α → α → Bool} {P : α → Prop}
    (htot : ∀ a b, P a → P b → le a b = true ∨ le b a = true)
    (htrans : ∀ a b c, P a → P b → P c → le a b = true → le b c = true → le a c = true)
    {l : List α} (hl : ∀ a ∈ l, P a) :
    (stableSort le l).Pairwise (fun a b => le a b = true) := by
  induction l with
  | nil => simp [stableSort]
  | cons x xs ih =>
      simp only [stableSort]
      exact pairwise_sortInsert htot htrans (hl x (List.mem_cons_self x xs))
        (fun a ha => hl a (List.mem_cons_of_mem x (mem_stableSort.mp ha)))
        (ih (fun a ha => hl a (List.mem_cons_of_mem x ha)))

/-! ## Feed collection lemmas -/

theorem collectFeeds_eq_flatten (srcs : List SourceOutcome) :
    collectFeeds srcs = (srcs.map sourceItems).flatten := by
  induction srcs with
  | nil => rfl
  | cons src rest ih =>
      rcases src with ⟨url, feed⟩
      cases feed with
      | ok f => simp [collectFeeds, sourceItems, ih]
      | error e => simp [collectFeeds, sourceItems, ih]

theorem collectFeeds_append (s₁ s₂ : List SourceOutcome) :
    collectFeeds (s₁ ++ s₂) = collectFeeds s₁ ++ collectFeeds s₂ := by
  rw [collectFeeds_eq_flatten, collectFeeds_eq_flatten, collectFeeds_eq_flatten,
    List.map_append, List.flatten_append]

theorem collectFeeds_error_skip (pre post : List SourceOutcome) (u : String) (e : String) :
    collectFeeds (pre ++ (u, Except.error e) :: post) = collectFeeds (pre ++ post) := by
  rw [collectFeeds_append, collectFeeds_append]
  simp [collectFeeds]

/-! ## Enrichment lemmas -/

theorem enrichAll_length (cfg : SumCfg) (ext : String → String) (resps : Nat → AIResp) :
    ∀ (l : List RawItem) (i : Nat) (d : Bool), (enrichAll cfg ext resps l i d).length = l.length := by
  intro l
  induction l with
  | nil => intro i d; rfl
  | cons item rest ih =>
      intro i d
      simp only [enrichAll, List.length_cons, ih]

theorem enrichAll_forall2 (cfg : SumCfg) (ext : String → String) (resps : Nat → AIResp) :
    ∀ (l : List RawItem) (i : Nat) (d : Bool),
      List.Forall₂ (fun (r : RawItem) (e : EnrichedItem) =>
          e.id = deriveId r.url ∧ e.title = r.title ∧ e.url = r.url ∧
          e.content = r.source ++ " • " ++ r.publishedAt)
        l (enrichAll cfg ext resps l i d) := by
  intro l
  induction l with
  | nil => intro i d; exact List.Forall₂.nil
  | cons item rest ih =>
      intro i d
      simp only [enrichAll]
      exact List.Forall₂.cons ⟨rfl, rfl, rfl, rfl⟩ (ih (i + 1) _)

theorem mem_enrichAll_id (cfg : SumCfg) (ext : String → String) (resps : Nat → AIResp) :
    ∀ (l : List RawItem) (i : Nat) (d : Bool) (e : EnrichedItem),
      e ∈ enrichAll cfg ext resps l i d → e.id = deriveId e.url := by
  intro l
  induction l with
  | nil =>
      intro i d e he
      simp only [enrichAll] at he
      cases he
  | cons item rest ih =>
      intro i d e he
      simp only [enrichAll] at he
      rcases List.mem_cons.mp he with rfl | he'
      · rfl
      · exact ih (i + 1) _ e he'

theorem mem_enrichAll_url (cfg : SumCfg) (ext : String → String) (resps : Nat → AIResp) :
    ∀ (l : List RawItem) (i : Nat) (d : Bool) (e : EnrichedItem),
      e ∈ enrichAll cfg ext resps l i d → ∃ r ∈ l, e.url = r.url := by
  intro l
  induction l with
  | nil =>
      intro i d e he
      simp only [enrichAll] at he
      cases he
  | cons item rest ih =>
      intro i d e he
      simp only [enrichAll] at he
      rcases List.mem_cons.mp he with rfl | he'
      · exact ⟨item, List.mem_cons_self item rest, rfl⟩
      · rcases ih (i + 1) _ e he' with ⟨r, hr, hu⟩
        exact ⟨r, List.mem_cons_of_mem item hr, hu⟩

theorem mem_trimmedCandidates_url (parseDate : String → Option Int) (maxItems : Nat)
    (srcs : List SourceOutcome) (r : RawItem)
    (hr : r ∈ trimmedCandidates parseDate maxItems srcs) : r.url ≠ "" := by
  unfold trimmedCandidates at hr
  have hmem := List.mem_of_mem_take hr
  have hfil := List.of_mem_filter hmem
  simpa using hfil

/-! ## Summarizer cycle lemmas -/

theorem summarizeRich_disabled (cfg : SumCfg) (title url fulltext : String) (resp : AIResp) :
    summarizeRich cfg title url fulltext resp true = ⟨"", false, true⟩ := by
  simp [summarizeRich]

theorem runCycle_disabled (cfg : SumCfg) :
    ∀ (calls : List SumCall),
      runCycle cfg calls true = List.replicate calls.length ⟨"", false, true⟩ := by
  intro calls
  induction calls with
  | nil => rfl
  | cons c cs ih =>
      simp only [runCycle, summarizeRich_disabled, List.length_cons, List.replicate_succ]
      exact congrArg _ ih

theorem runCycle_length (cfg : SumCfg) :
    ∀ (calls : List SumCall) (d : Bool), (runCycle cfg calls d).length = calls.length := by
  intro calls
  induction calls with
  | nil => intro d; rfl
  | cons c cs ih =>
      intro d
      simp only [runCycle, List.length_cons, ih]

theorem runCycle_quarantine (cfg : SumCfg) :
    ∀ (calls : List SumCall) (d : Bool) (i j : Nat)
      (hi : i < (runCycle cfg calls d).length) (hj : j < (runCycle cfg calls d).length),
      i < j → ((runCycle cfg calls d).get ⟨i, hi⟩).disabled = true →
      (runCycle cfg calls d).get ⟨j, hj⟩ = ⟨"", false, true⟩ := by
  intro calls
  induction calls with
  | nil =>
      intro d i j hi _ _ _
      exact absurd hi (by simp [runCycle])
  | cons c cs ih =>
      intro d i j hi hj hij hdis
      cases i with
      | zero =>
          cases j with
          | zero => exact absurd hij (Nat.lt_irrefl 0)
          | succ j' =>
              have hdis' : (summarizeRich cfg c.title c.url c.fulltext c.resp d).disabled = true := hdis
              have hrepl : runCycle cfg cs (summarizeRich cfg c.title c.url c.fulltext c.resp d).disabled
                  = List.replicate cs.length (⟨"", false, true⟩ : SumResult) := by
                rw [hdis']
                exact runCycle_disabled cfg cs
              show (runCycle cfg cs (summarizeRich cfg c.title c.url c.fulltext c.resp d).disabled).get
                ⟨j', _⟩ = ⟨"", false, true⟩
              rw [List.get_of_eq hrepl]
              simp
      | succ i' =>
          cases j with
          | zero => exact absurd hij (Nat.not_lt_zero i'.succ)
          | succ j' =>
              exact ih _ i' j' _ _ (Nat.lt_of_succ_lt_succ hij) hdis

/-! ## Concrete fixtures used by witnesses and the counterexample -/

/-- A default enriched item, used only to select elements of concrete runs. -/
def eDefault : EnrichedItem :=
  ⟨"", "", "", "", "", "", "", ""⟩

/-- A configuration with no API key: summarization is skipped. -/
def cfgW : SumCfg := ⟨"", false⟩

/-- A date oracle parsing two concrete ISO dates. -/
def pdW : String → Option Int :=
  fun s =>
    if s = "2024-01-05" then some 1704412800000
    else if s = "2024-01-06" then some 1704499200000
    else none

def entryW1 : FeedEntry :=
  ⟨some "Old", some "https://w.example/old", none, some "2024-01-05", none, some "s1", none, none⟩

def entryW2 : FeedEntry :=
  ⟨some "New", some "https://w.example/new", none, some "2024-01-06", none, some "s2", none, none⟩

/-- An entry with neither link nor guid: its RawItem url is empty. -/
def entryW3 : FeedEntry :=
  ⟨some "NoUrl", none, none, some "2024-01-06", none, some "s3", none, none⟩

def srcsW : List SourceOutcome :=
  [("https://feed.example", Except.ok ⟨some "W", [entryW1, entryW2, entryW3]⟩),
   ("https://bad.example", Except.error "timeout")]

def extW : String → String := fun _ => ""

def respsW : Nat → AIResp := fun _ => .netErr

/-- A second run over the same urls with drifted titles/snippets and a
different extraction oracle. -/
def srcsW5 : List SourceOutcome :=
  [("https://feed.example", Except.ok ⟨some "W5",
    [⟨some "New (renamed)", some "https://w.example/new", none, some "2024-01-06", none,
      some "different snippet", none, none⟩]⟩)]

def extW5 : String → String := fun _ => "Some extracted text body"

/-! ## Claims -/

/-- C3: for every refresh cycle, however many RawItems were merged from
all sources, the published snapshot's item list has length at most the
configured maximum item cap (`MAX_ITEMS`): the pipeline takes at most
`maxItems` candidates after sorting and filtering, and enrichment is
length-preserving. -/
theorem snapshot_length_le_cap (cfg : SumCfg) (parseDate : String → Option Int)
    (maxItems : Nat) (ext : String → String) (resps : Nat → AIResp)
    (srcs : List SourceOutcome) (prev : Bool) :
    (fetchFeedsModel cfg parseDate maxItems ext resps srcs prev).length ≤ maxItems := by
  unfold fetchFeedsModel
  rw [enrichAll_length]
  unfold trimmedCandidates
  rw [List.length_take]
  exact min_le_left _ _

/-- C4: no RawItem with an empty url survives into enrichment (every
trimmed candidate has a non-empty url), and every EnrichedItem in a
published snapshot has a non-empty url. -/
theorem snapshot_urls_nonempty (cfg : SumCfg) (parseDate : String → Option Int)
    (maxItems : Nat) (ext : String → String) (resps : Nat → AIResp)
    (srcs : List SourceOutcome) (prev : Bool) :
    (∀ r ∈ trimmedCandidates parseDate maxItems srcs, r.url ≠ "") ∧
    (∀ e ∈ fetchFeedsModel cfg parseDate maxItems ext resps srcs prev, e.url ≠ "") := by
  constructor
  · intro r hr
    exact mem_trimmedCandidates_url parseDate maxItems srcs r hr
  · intro e he
    rcases mem_enrichAll_url cfg ext resps _ 0 false e he with ⟨r, hr, hu⟩
    rw [hu]
    exact mem_trimmedCandidates_url parseDate maxItems srcs r hr

/-- C4 witness: in the concrete run over `srcsW`, the first published
item has a non-empty url. -/
theorem snapshot_urls_nonempty_witness :
    ((fetchFeedsModel cfgW pdW 25 extW respsW srcsW false).getD 0 eDefault).url ≠ "" :=
  (snapshot_urls_nonempty cfgW pdW 25 extW respsW srcsW false).2
    ((fetchFeedsModel cfgW pdW 25 extW respsW srcsW false).getD 0 eDefault) (by decide)

/-- C6: the summary of an enriched item follows the preference order
[AI summary, truncated extracted text (first 800 chars plus an
ellipsis), raw snippet, literal "New article"]; in particular with empty
extraction and no AI summary it is the snippet, or "New article" when
the snippet is empty too. -/
theorem summary_preference_order (item : RawItem) (full rich : String) :
    (rich ≠ "" → (enrichItem item full rich).summary = rich) ∧
    (rich = "" → full ≠ "" → (enrichItem item full rich).summary = strTake full 800 ++ "…") ∧
    (rich = "" → full = "" → item.snippet ≠ "" → (enrichItem item full rich).summary = item.snippet) ∧
    (rich = "" → full = "" → item.snippet = "" → (enrichItem item full rich).summary = "New article") := by
  refine ⟨?_, ?_, ?_, ?_⟩
  · intro hr
    simp [enrichItem, jsOrS, hr]
  · intro hr hf
    simp [enrichItem, jsOrS, hr, hf]
  · intro hr hf hs
    simp [enrichItem, jsOrS, hr, hf, hs]
  · intro hr hf hs
    simp [enrichItem, jsOrS, hr, hf, hs]

/-- C6 witness: an item whose extraction failed and whose summarization
was skipped keeps its feed snippet; with an empty snippet the summary is
the literal "New article". -/
theorem summary_preference_order_witness :
    (enrichItem ⟨"T", "https://u", "S", "", "snip"⟩ "" "").summary = "snip" ∧
    (enrichItem ⟨"T", "https://u", "S", "", ""⟩ "" "").summary = "New article" :=
  ⟨(summary_preference_order ⟨"T", "https://u", "S", "", "snip"⟩ "" "").2.2.1 rfl rfl (by decide),
   (summary_preference_order ⟨"T", "https://u", "S", "", ""⟩ "" "").2.2.2 rfl rfl rfl⟩

/-- C7: a failing source contributes an empty result; the collection
loop is the concatenation of the per-source contributions, so a failure
never aborts the fetching of the remaining sources; and removing a
failing source from the configuration leaves the collected items
unchanged — the non-failing sources contribute exactly what they would
have contributed had no source failed. -/
theorem feed_failures_isolated :
    (∀ (u e : String), sourceItems (u, Except.error e) = []) ∧
    (∀ srcs : List SourceOutcome, collectFeeds srcs = (srcs.map sourceItems).flatten) ∧
    (∀ (pre post : List SourceOutcome) (u e : String),
      collectFeeds (pre ++ (u, Except.error e) :: post) = collectFeeds pre ++ collectFeeds post) :=
  ⟨fun _ _ => rfl,
   collectFeeds_eq_flatten,
   fun pre post u e => by
     rw [collectFeeds_error_skip pre post u e, collectFeeds_append]⟩

/-- C9: for every configured refresh-minutes value — including
misconfigured ones — the interval handed to the scheduler is clamped
between 5 minutes and 24 hours (in milliseconds); in particular a
configured 1 minute becomes the 5-minute minimum. -/
theorem refresh_interval_clamped :
    (∀ m : Int, 5 * 60 * 1000 ≤ schedulerIntervalMs m ∧
      schedulerIntervalMs m ≤ 24 * 60 * 60 * 1000) ∧
    schedulerIntervalMs 1 = 5 * 60 * 1000 := by
  constructor
  · intro m
    unfold schedulerIntervalMs refreshMs
    constructor
    · exact le_min (le_max_right _ _) (by norm_num)
    · exact min_le_right _ _
  · decide

/-- A configuration with a credential and summarization on, for the
quota-breaker witness. -/
def cfgQ : SumCfg := ⟨"sk-key", true⟩

/-- Two summarize calls: the first hits a quota-exhausted response, the
second would succeed. -/
def callsQ : List SumCall :=
  [⟨"T1", "https://u1", "text1", .httpErr "insufficient quota for this request"⟩,
   ⟨"T2", "https://u2", "text2", .ok (some "A summary")⟩]

/-- C1: the flag entering a cycle's summarize sequence is always `false`
(line 166 resets it, whatever the previous cycle left); a call that
reaches the request with the flag clear and receives a non-success
quota-indicating body returns empty and sets the flag; and once any call
in the sequence ends with the flag set, every later call of the same
cycle returns empty with no request attempted. -/
theorem quota_circuit_breaker (cfg : SumCfg) (calls : List SumCall) (prev : Bool) :
    fetchCycleSummaries cfg calls prev = runCycle cfg calls false ∧
    (∀ body : String, cfg.apiKey ≠ "" → cfg.summarize = true → quotaIndicator body = true →
      ∀ title url fulltext : String,
        summarizeRich cfg title url fulltext (.httpErr body) false = ⟨"", true, true⟩) ∧
    (∀ (i j : Nat) (hi : i < (runCycle cfg calls false).length)
      (hj : j < (runCycle cfg calls false).length),
      i < j → ((runCycle cfg calls false).get ⟨i, hi⟩).disabled = true →
      (runCycle cfg calls false).get ⟨j, hj⟩ = ⟨"", false, true⟩) := by
  refine ⟨rfl, ?_, ?_⟩
  · intro body hk hs hq title url fulltext
    simp [summarizeRich, hk, hs, hq]
  · exact runCycle_quarantine cfg calls false

/-- C1 witness: with a credential configured and summarization on, a
quota response on the first call makes the second call of the same cycle
return empty without attempting a request. -/
theorem quota_circuit_breaker_witness :
    (runCycle cfgQ callsQ false).get ⟨1, by decide⟩ = ⟨"", false, true⟩ :=
  (quota_circuit_breaker cfgQ callsQ false).2.2 0 1 (by decide) (by decide)
    (by decide) (by decide)

/-- A date oracle for the counterexample: one parseable ISO date, all
other non-empty strings are unparseable (`new Date` gives Invalid Date,
whose numeric value is NaN). -/
def pdCx : String → Option Int :=
  fun s => if s = "2024-01-05" then some 1704412800000 else none

/-- One source whose first entry has a non-empty but unparseable
`publishedAt` and whose second entry has a newer, parseable one. -/
def srcsCx : List SourceOutcome :=
  [("https://feed.example/rss", Except.ok ⟨some "Feed",
    [⟨some "A", some "https://a.example/x", none, some "definitely-not-a-date", none,
      some "sa", none, none⟩,
     ⟨some "B", some "https://b.example/y", none, some "2024-01-05", none,
      some "sb", none, none⟩]⟩)]

/-- C2 counterexample: the claim says an item whose `publishedAt` is
unparseable sorts as oldest and appears last, which at this input would
publish the urls in the order `[".../y", ".../x"]` (the dated item B
first, the unparseable item A last). The comparator
`new Date(b.publishedAt || 0) - new Date(a.publishedAt || 0)` is NaN
against A's Invalid Date, imposing no order, so the stable sort keeps A
in front: the snapshot publishes `[".../x", ".../y"]`. -/
theorem snapshot_sort_counterexample :
    (fetchFeedsModel cfgW pdCx 25 extW respsW srcsCx false).map (fun e => e.url)
      = ["https://a.example/x", "https://b.example/y"] ∧
    (fetchFeedsModel cfgW pdCx 25 extW respsW srcsCx false).map (fun e => e.url)
      ≠ ["https://b.example/y", "https://a.example/x"] := by
  constructor
  · decide
  · decide

/-- C2 (amended): the published items correspond one-to-one, in order,
to the sorted trimmed candidates; and whenever every merged item's
`publishedAt` is missing or parseable, the snapshot is ordered by
`publishedAt` descending, a missing date being treated as the epoch
(so it sorts as oldest). Items with non-empty unparseable dates compare
as NaN (no preference) and need not appear last (see the
counterexample). -/
theorem snapshot_sorted_desc (cfg : SumCfg) (parseDate : String → Option Int)
    (maxItems : Nat) (ext : String → String) (resps : Nat → AIResp)
    (srcs : List SourceOutcome) (prev : Bool)
    (hall : ∀ it ∈ collectFeeds srcs, (dval parseDate it).isSome = true) :
    (trimmedCandidates parseDate maxItems srcs).Pairwise
      (fun a b => dateLe parseDate a b = true) ∧
    List.Forall₂ (fun (r : RawItem) (e : EnrichedItem) =>
        e.url = r.url ∧ e.content = r.source ++ " • " ++ r.publishedAt)
      (trimmedCandidates parseDate maxItems srcs)
      (fetchFeedsModel cfg parseDate maxItems ext resps srcs prev) := by
  constructor
  · have htot : ∀ a b : RawItem, (dval parseDate a).isSome = true →
        (dval parseDate b).isSome = true →
        dateLe parseDate a b = true ∨ dateLe parseDate b a = true := by
      intro a b ha hb
      cases ho1 : dval parseDate a with
      | none => rw [ho1] at ha; simp at ha
      | some x =>
          cases ho2 : dval parseDate b with
          | none => rw [ho2] at hb; simp at hb
          | some y =>
              simp only [dateLe, ho1, ho2]
              rcases le_total y x with h | h
              · exact Or.inl (decide_eq_true h)
              · exact Or.inr (decide_eq_true h)
    have htrans : ∀ a b c : RawItem, (dval parseDate a).isSome = true →
        (dval parseDate b).isSome = true → (dval parseDate c).isSome = true →
        dateLe parseDate a b = true → dateLe parseDate b c = true →
        dateLe parseDate a c = true := by
      intro a b c ha hb hc hab hbc
      cases ho1 : dval parseDate a with
      | none => rw [ho1] at ha; simp at ha
      | some x =>
          cases ho2 : dval parseDate b with
          | none => rw [ho2] at hb; simp at hb
          | some y =>
              cases ho3 : dval parseDate c with
              | none => rw [ho3] at hc; simp at hc
              | some z =>
                  simp only [dateLe, ho1, ho2] at hab
                  simp only [dateLe, ho2, ho3] at hbc
                  simp only [dateLe, ho1, ho3]
                  exact decide_eq_true (le_trans (of_decide_eq_true hbc) (of_decide_eq_true hab))
    have hsorted : (stableSort (dateLe parseDate) (collectFeeds srcs)).Pairwise
        (fun a b => dateLe parseDate a b = true) :=
      pairwise_stableSort htot htrans hall
    have hsub : List.Sublist (trimmedCandidates parseDate maxItems srcs)
        (stableSort (dateLe parseDate) (collectFeeds srcs)) := by
      unfold trimmedCandidates
      exact (List.take_sublist _ _).trans (List.filter_sublist _)
    exact hsorted.sublist hsub
  · exact List.Forall₂.imp (fun a b h => ⟨h.2.2.1, h.2.2.2⟩)
      (enrichAll_forall2 cfg ext resps _ 0 false)

/-- C2 witness: the concrete run over `srcsW` (all dates parseable, one
source failing, one entry without url) publishes a snapshot that is
pairwise newest-first and corresponds in order to the sorted
candidates. -/
theorem snapshot_sorted_desc_witness :
    (trimmedCandidates pdW 25 srcsW).Pairwise (fun a b => dateLe pdW a b = true) ∧
    List.Forall₂ (fun (r : RawItem) (e : EnrichedItem) =>
        e.url = r.url ∧ e.content = r.source ++ " • " ++ r.publishedAt)
      (trimmedCandidates pdW 25 srcsW)
      (fetchFeedsModel cfgW pdW 25 extW respsW srcsW false) :=
  snapshot_sorted_desc cfgW pdW 25 extW respsW srcsW false (by decide)

/-- C5: the id of a published item is a pure function of its url: any
two items published in any two runs (same or different configuration,
date oracle, extraction and AI oracles, sources, drifted titles or
snippets) that share a url share an id. -/
theorem id_pure_function_of_url
    (cfg1 : SumCfg) (pd1 : String → Option Int) (cap1 : Nat) (ext1 : String → String)
    (resps1 : Nat → AIResp) (srcs1 : List SourceOutcome) (prev1 : Bool)
    (cfg2 : SumCfg) (pd2 : String → Option Int) (cap2 : Nat) (ext2 : String → String)
    (resps2 : Nat → AIResp) (srcs2 : List SourceOutcome) (prev2 : Bool)
    (e1 e2 : EnrichedItem)
    (h1 : e1 ∈ fetchFeedsModel cfg1 pd1 cap1 ext1 resps1 srcs1 prev1)
    (h2 : e2 ∈ fetchFeedsModel cfg2 pd2 cap2 ext2 resps2 srcs2 prev2)
    (hurl : e1.url = e2.url) : e1.id = e2.id := by
  have hi1 := mem_enrichAll_id cfg1 ext1 resps1 _ 0 false e1 h1
  have hi2 := mem_enrichAll_id cfg2 ext2 resps2 _ 0 false e2 h2
  rw [hi1, hi2, hurl]

/-- C5 witness: the same url enriched in two different runs — different
titles, snippets, source lists and extraction results — receives the
same id. -/
theorem id_pure_function_of_url_witness :
    ((fetchFeedsModel cfgW pdW 25 extW respsW srcsW false).getD 0 eDefault).id
      = ((fetchFeedsModel cfgW pdW 25 extW5 respsW srcsW5 false).getD 0 eDefault).id :=
  id_pure_function_of_url cfgW pdW 25 extW respsW srcsW false
    cfgW pdW 25 extW5 respsW srcsW5 false _ _ (by decide) (by decide) (by decide)

/-- C8: the classifier is deterministic; its result depends only on the
lowercased concatenation of its two inputs (case-insensitivity); the
four keyword groups are tested in the fixed priority order AI-Ops,
fine-tuning/RL, evals, experiments with first match winning; and with no
matching keyword the result is the AI Ops track. -/
theorem classifier_deterministic_priority :
    (∀ a b a2 b2 : String, a = a2 → b = b2 → classifyTrack a b = classifyTrack a2 b2) ∧
    (∀ a b a2 b2 : String,
      strToLower (a ++ " " ++ b) = strToLower (a2 ++ " " ++ b2) →
      classifyTrack a b = classifyTrack a2 b2) ∧
    (∀ a b : String, matchesAny aiOpsPats (strToLower (a ++ " " ++ b)) = true →
      classifyTrack a b = "AI Ops") ∧
    (∀ a b : String, matchesAny aiOpsPats (strToLower (a ++ " " ++ b)) = false →
      matchesAny sftRlPats (strToLower (a ++ " " ++ b)) = true →
      classifyTrack a b = "SFT/RL") ∧
    (∀ a b : String, matchesAny aiOpsPats (strToLower (a ++ " " ++ b)) = false →
      matchesAny sftRlPats (strToLower (a ++ " " ++ b)) = false →
      matchesAny evalsPats (strToLower (a ++ " " ++ b)) = true →
      classifyTrack a b = "Evals") ∧
    (∀ a b : String, matchesAny aiOpsPats (strToLower (a ++ " " ++ b)) = false →
      matchesAny sftRlPats (strToLower (a ++ " " ++ b)) = false →
      matchesAny evalsPats (strToLower (a ++ " " ++ b)) = false →
      matchesAny experimentsPats (strToLower (a ++ " " ++ b)) = true →
      classifyTrack a b = "Experiments") ∧
    (∀ a b : String, matchesAny aiOpsPats (strToLower (a ++ " " ++ b)) = false →
      matchesAny sftRlPats (strToLower (a ++ " " ++ b)) = false →
      matchesAny evalsPats (strToLower (a ++ " " ++ b)) = false →
      matchesAny experimentsPats (strToLower (a ++ " " ++ b)) = false →
      classifyTrack a b = "AI Ops") := by
  refine ⟨?_, ?_, ?_, ?_, ?_, ?_, ?_⟩
  · intro a b a2 b2 ha hb
    rw [ha, hb]
  · intro a b a2 b2 h
    simp only [classifyTrack]
    rw [h]
  · intro a b h1
    simp [classifyTrack, h1]
  · intro a b h1 h2
    simp [classifyTrack, h1, h2]
  · intro a b h1 h2 h3
    simp [classifyTrack, h1, h2, h3]
  · intro a b h1 h2 h3 h4
    simp [classifyTrack, h1, h2, h3, h4]
  · intro a b h1 h2 h3 h4
    simp [classifyTrack, h1, h2, h3, h4]

/-- C8 witness: a fine-tuning title classifies as SFT/RL (second group,
first group not matching), and keyword-free text falls back to the AI
Ops default. -/
theorem classifier_deterministic_priority_witness :
    classifyTrack "Fine-tuning notes" "" = "SFT/RL" ∧
    classifyTrack "hello world" "" = "AI Ops" :=
  ⟨classifier_deterministic_priority.2.2.2.1 "Fine-tuning notes" "" (by decide) (by decide),
   classifier_deterministic_priority.2.2.2.2.2.2 "hello world" "" (by decide) (by decide)
     (by decide) (by decide)⟩

/-- C10: any completed interleaving of the `mapWithConcurrency` pool
stores at index `j` exactly `fn(arr[j], j)` and processes each index
exactly once (`results` has precisely the input's indices filled); and
in the pipeline the enrichment output corresponds index-by-index to its
sorted candidate input — order is preserved, so the published snapshot
stays newest-first with no re-sort after enrichment. -/
theorem mapWithConcurrency_correct :
    (∀ (α β : Type) (arr : List α) (c : Nat) (fn : α → Nat → β) (g : Nat → β)
      (s : PoolState β),
      (∀ (j : Nat) (h : j < arr.length), g j = fn (arr.get ⟨j, h⟩) j) →
      Relation.ReflTransGen (PoolStep arr.length (workerCount c arr.length) g)
        (poolInit β) s →
      poolDone (workerCount c arr.length) s →
      ((∀ (j : Nat) (h : j < arr.length), s.results j = some (fn (arr.get ⟨j, h⟩) j)) ∧
       (∀ j : Nat, s.wcount j = if j < arr.length then 1 else 0))) ∧
    (∀ (cfg : SumCfg) (pd : String → Option Int) (cap : Nat) (ext : String → String)
      (resps : Nat → AIResp) (srcs : List SourceOutcome) (prev : Bool),
      List.Forall₂ (fun (r : RawItem) (e : EnrichedItem) =>
          e.url = r.url ∧ e.id = deriveId r.url)
        (trimmedCandidates pd cap srcs) (fetchFeedsModel cfg pd cap ext resps srcs prev)) := by
  constructor
  · intro α β arr c fn g s hg hreach hdone
    have h := pool_run_correct hreach hdone
    refine ⟨?_, h.2⟩
    intro j hj
    rw [h.1 j hj, hg j hj]
  · intro cfg pd cap ext resps srcs prev
    exact List.Forall₂.imp (fun a b h => ⟨h.2.2.1, h.1⟩)
      (enrichAll_forall2 cfg ext resps _ 0 false)

/-- The final state of a one-element, concurrency-2 pool run: counter
past the array, the single result stored, the single worker done, the
single index processed once. -/
def poolFinalW : PoolState Nat :=
  ⟨2, fun j => if j = 0 then some 43 else none,
    Function.update (Function.update (Function.update (fun _ => WorkerSt.idle) 0
      (WorkerSt.working 0)) 0 WorkerSt.idle) 0 WorkerSt.done,
    fun j => if j = 0 then 1 else 0⟩

/-- C10 witness: an explicit grab/finish/exit run of the pool on
`arr = [42]` with `fn a i = a + 1` ends with `results[0] = 43`,
index 0 processed once and no other index processed. -/
theorem mapWithConcurrency_correct_witness :
    poolFinalW.results 0 = some 43 ∧ poolFinalW.wcount 0 = 1 ∧ poolFinalW.wcount 1 = 0 := by
  have hg : ∀ (j : Nat) (h : j < ([42] : List Nat).length),
      (fun _ : Nat => 43) j = (fun (a : Nat) (_ : Nat) => a + 1) (([42] : List Nat).get ⟨j, h⟩) j := by
    intro j h
    have hj : j = 0 := Nat.lt_one_iff.mp h
    subst hj
    rfl
  have htrace : Relation.ReflTransGen
      (PoolStep ([42] : List Nat).length (workerCount 2 ([42] : List Nat).length)
        (fun _ => 43))
      (poolInit Nat) poolFinalW := by
    exact Relation.ReflTransGen.head
      (PoolStep.grab_lt (poolInit Nat) 0 (by decide) rfl (by decide))
      (Relation.ReflTransGen.head
        (PoolStep.finish _ 0 0 (by decide) rfl)
        (Relation.ReflTransGen.single
          (PoolStep.grab_ge _ 0 (by decide) rfl (by decide))))
  have hdone : poolDone (workerCount 2 ([42] : List Nat).length) poolFinalW := by
    intro k hk
    have hk0 : k = 0 := Nat.lt_one_iff.mp hk
    subst hk0
    rfl
  have h := mapWithConcurrency_correct.1 Nat Nat [42] 2 (fun a _ => a + 1) (fun _ => 43)
    poolFinalW hg htrace hdone
  exact ⟨h.1 0 (by decide), (h.2 0).trans (by decide), (h.2 1).trans (by decide)⟩

end Dashboard
